import Mathlib

/-!
Verification of the graph-construction and graph-analytics engine of the
social-network-analysis module (`graph_builder.py`, with the mention-token
shape coming from `data_collector.py`).

The Python module accumulates edge weights in insertion-ordered
`defaultdict(int)` counters and then materialises `networkx.DiGraph`
objects.  We embed both layers shallowly:

* a counter is an association list `List (κ × Nat)` in insertion order;
  `bump k` models `counter[k] += 1` (increment in place, or append `(k,1)`);
* a `DiGraph` is a node list in insertion order plus an insertion-ordered
  association list from ordered pairs `(source, target)` to weights;
  `add_edge` models `networkx.DiGraph.add_edge` (register unseen endpoints,
  overwrite the weight attribute of an existing edge).

Floating-point centrality scores are embedded as rationals; the external
`networkx` centrality routines that `get_top_nodes` dispatches to are
parameters (`CentralityLib`), with the eigenvector routine fallible the way
`networkx.eigenvector_centrality` is (it raises
`PowerIterationFailedConvergence` when `max_iter` is exhausted).
-/

namespace SNA

/-- A document handed to the graph builder: the fields of the tweet record
that `build_hashtag_graph` / `build_mention_graph` read. -/
structure Document where
  author_id : String
  hashtags : List String
  mentions : List String
deriving DecidableEq, Repr

/-- Insertion-ordered counter update: models `defaultdict(int); d[k] += 1`.
If the key is present its value is incremented in place, otherwise the key
is appended with value 1 (Python dicts preserve insertion order). -/
def bump {κ : Type} [DecidableEq κ] (k : κ) : List (κ × Nat) → List (κ × Nat)
  | [] => [(k, 1)]
  | (k0, v) :: rest => if k0 = k then (k0, v + 1) :: rest else (k0, v) :: bump k rest

/-- Bump a counter once for every key in a list, left to right. -/
def bumpAll {κ : Type} [DecidableEq κ] (m : List (κ × Nat)) (ks : List κ) : List (κ × Nat) :=
  ks.foldl (fun m k => bump k m) m

/-- Key lookup in an association list: models Python dict access. -/
def wlookup {κ : Type} [DecidableEq κ] (k : κ) : List (κ × Nat) → Option Nat
  | [] => none
  | (k0, v) :: rest => if k0 = k then some v else wlookup k rest

/-- Number of occurrences of a key in a list of keys. -/
def keyCount {κ : Type} [DecidableEq κ] (ks : List κ) (k : κ) : Nat :=
  ks.countP (fun x => decide (x = k))

/-- The keys of a counter, in insertion order. -/
def keys {κ : Type} (m : List (κ × Nat)) : List κ :=
  m.map Prod.fst

/-- Lexicographic comparison of two character lists, by code point — the
order Python uses to compare strings. -/
def lexLe : List Char → List Char → Bool
  | [], _ => true
  | _ :: _, [] => false
  | a :: as, b :: bs => if a = b then lexLe as bs else decide (a < b)

/-- Python string comparison: lexicographic on the code points. -/
def strLe (a b : String) : Bool :=
  lexLe a.data b.data

/-- Models `tuple(sorted([a, b]))` for two strings: the canonically ordered
pair under the code-point lexicographic string order. -/
def sortedPair (a b : String) : String × String :=
  if strLe a b then (a, b) else (b, a)

/-- The ordered-index pairs of the nested loop
`for i in range(len(h)): for j in range(i+1, len(h))`:
every `sorted` pair `(h[i], h[j])` with `i < j`, in loop order. -/
def pairsAux : List String → List (String × String)
  | [] => []
  | h :: rest => rest.map (fun h2 => sortedPair h h2) ++ pairsAux rest

/-- The pairs one document contributes, including the source's
`if len(hashtags) >= 2` guard (the guard is redundant for pair generation:
shorter lists generate no pairs). -/
def docPairList (hashtags : List String) : List (String × String) :=
  if hashtags.length ≥ 2 then pairsAux hashtags else []

/-- The `hashtag_pairs` counter of `build_hashtag_graph` (lines 39-48):
for each document, every ordered-index pair of its hashtag list, taken
as-is from the document, bumps the canonically sorted pair by one. -/
def build_hashtag_pairs (docs : List Document) : List ((String × String) × Nat) :=
  docs.foldl (fun acc d => bumpAll acc (docPairList d.hashtags)) []

/-- A `networkx.DiGraph` restricted to what the module uses: nodes in
insertion order, and a weight attribute per ordered pair of endpoints. -/
structure DiGraph where
  nodes : List String
  edges : List ((String × String) × Nat)
deriving DecidableEq, Repr

/-- Register a node if unseen (networkx appends new nodes in insertion
order and leaves known nodes untouched). -/
def addNode (g : DiGraph) (n : String) : DiGraph :=
  if n ∈ g.nodes then g else ⟨g.nodes ++ [n], g.edges⟩

/-- Set the weight attribute of an edge key: overwrite in place when the
edge exists, append otherwise. -/
def setEdge : List ((String × String) × Nat) → String × String → Nat → List ((String × String) × Nat)
  | [], k, w => [(k, w)]
  | (k0, w0) :: rest, k, w =>
      if k0 = k then (k0, w) :: rest else (k0, w0) :: setEdge rest k w

/-- Models `DiGraph.add_edge(u, v, weight=w)`: both endpoints become nodes
and the ordered edge `(u, v)` gets weight `w`. -/
def add_edge (g : DiGraph) (u v : String) (w : Nat) : DiGraph :=
  let g1 := addNode g u
  let g2 := addNode g1 v
  ⟨g2.nodes, setEdge g2.edges (u, v) w⟩

/-- `build_hashtag_graph` (lines 32-56): accumulate the pair counter, then
insert every counted pair in both directions with the same weight
(lines 51-53 call `add_edge(h1, h2, w)` and `add_edge(h2, h1, w)`). -/
def build_hashtag_graph (docs : List Document) : DiGraph :=
  (build_hashtag_pairs docs).foldl
    (fun g pw => add_edge (add_edge g pw.1.1 pw.1.2 pw.2) pw.1.2 pw.1.1 pw.2)
    ⟨[], []⟩

/-- Models `mention.replace('@', '')` from line 73: the pattern is the
single character `@` and the replacement is empty, so the call deletes
every occurrence of `@` from the token. -/
def mentionClean (m : String) : String :=
  ⟨m.data.filter (fun c => decide (c ≠ '@'))⟩

/-- The `mention_edges` counter of `build_mention_graph` (lines 65-75):
each mention token of each document bumps the directed key
`(author_id, cleaned mention)` by one. -/
def build_mention_edges (docs : List Document) : List ((String × String) × Nat) :=
  docs.foldl
    (fun acc d => bumpAll acc (d.mentions.map (fun m => (d.author_id, mentionClean m))))
    []

/-- `build_mention_graph` (lines 58-82): accumulate the mention counter,
then insert each counted directed edge once. -/
def build_mention_graph (docs : List Document) : DiGraph :=
  (build_mention_edges docs).foldl
    (fun g ew => add_edge g ew.1.1 ew.1.2 ew.2)
    ⟨[], []⟩

/-! Concrete inputs used by counterexamples and witnesses. -/

/-- The two-document batch of the spec scenario in §8: hashtag lists
`[#a, #b, #c]` and `[#a, #b]`. -/
def docs7 : List Document :=
  [⟨"x", ["#a", "#b", "#c"], []⟩, ⟨"y", ["#a", "#b"], []⟩]

/-- One document whose hashtag list repeats `#a`: `[#a, #b, #a]`. -/
def docsC2 : List Document :=
  [⟨"u", ["#a", "#b", "#a"], []⟩]

/-- One document by `u1` mentioning `@u2` twice. -/
def docsDM : List Document :=
  [⟨"u1", [], ["@u2", "@u2"]⟩]

/-- One document by `u1` mentioning only itself. -/
def docsSelf : List Document :=
  [⟨"u1", [], ["@u1"]⟩]

/-- One document by `u1` mentioning `@u2` once. -/
def docsM : List Document :=
  [⟨"u1", [], ["@u2"]⟩]

/-- The mention graph of `docsM`: nodes `u1`, `u2` and one edge. -/
def g2 : DiGraph := build_mention_graph docsM

/-- The mention graph of `docsSelf`: a single node with a self-loop. -/
def g1 : DiGraph := build_mention_graph docsSelf

/-- C7: on the spec scenario batch the built co-occurrence graph has
exactly the nodes `#a, #b, #c` and, read as unordered pairs, exactly the
edges: pair of `#a` and `#b` with weight 2, pair of `#a` and `#c` and pair
of `#b` and `#c` each with weight 1 (the builder stores each counted pair
in both directions with the same weight, so the six stored directed
entries realise exactly those three unordered edges). -/
theorem C7_scenario_graph :
    build_hashtag_graph docs7 =
      ⟨["#a", "#b", "#c"],
       [(("#a", "#b"), 2), (("#b", "#a"), 2),
        (("#a", "#c"), 1), (("#c", "#a"), 1),
        (("#b", "#c"), 1), (("#c", "#b"), 1)]⟩ := by
  decide

/-- C1: evaluating the builder at the failing batch of the spec scenario
shows the claim's invariant broken by the code: the graph stores both
`(#a, #b)` and `(#b, #a)` as separate counted edges of weight 2 (lines
52-53 insert both directions), while the claim requires that no unordered
pair appear in both orientations. -/
theorem C1_both_directions_stored :
    wlookup ("#a", "#b") (build_hashtag_graph docs7).edges = some 2 ∧
    wlookup ("#b", "#a") (build_hashtag_graph docs7).edges = some 2 := by
  decide

/-- C2 counterexample: on the single document with hashtag list
`[#a, #b, #a]` the pair counter pairs the duplicated `#a` with itself
(the self-pair key gets weight 1) and the duplicate inflates the count of
the pair of `#a` and `#b` to 2 even though only one document contains
both, refuting the claim that the list is deduplicated before pairing. -/
theorem C2_counterexample :
    build_hashtag_pairs docsC2 = [(("#a", "#b"), 2), (("#a", "#a"), 1)] ∧
    docsC2.length = 1 := by
  decide

/-- C3 counterexample: one document by `u1` that mentions `@u2` twice
produces the directed edge from `u1` to `u2` with weight 2, although the
number of documents by `u1` mentioning `u2` is 1 — the code counts mention
tokens, not distinct documents. -/
theorem C3_counterexample :
    wlookup ("u1", "u2") (build_mention_graph docsDM).edges = some 2 ∧
    (docsDM.filter
      (fun d => decide (d.author_id = "u1") &&
        decide ("u2" ∈ d.mentions.map mentionClean))).length = 1 := by
  decide

/-! Generic lemmas about the insertion-ordered counters. -/

theorem wlookup_bump_self {κ : Type} [DecidableEq κ] (k : κ) (m : List (κ × Nat)) :
    wlookup k (bump k m) = some ((wlookup k m).getD 0 + 1) := by
  induction m with
  | nil => simp [bump, wlookup]
  | cons hd tl ih =>
      obtain ⟨k0, v⟩ := hd
      by_cases h : k0 = k <;> simp [bump, wlookup, h, ih]

theorem wlookup_bump_ne {κ : Type} [DecidableEq κ] {k0 k : κ} (m : List (κ × Nat))
    (h : k0 ≠ k) : wlookup k (bump k0 m) = wlookup k m := by
  induction m with
  | nil => simp [bump, wlookup, h]
  | cons hd tl ih =>
      obtain ⟨k1, v⟩ := hd
      by_cases h1 : k1 = k0
      · subst h1
        simp [bump, wlookup, h]
      · simp [bump, wlookup, h1, ih]

theorem bumpAll_append {κ : Type} [DecidableEq κ] (m : List (κ × Nat)) (ks1 ks2 : List κ) :
    bumpAll m (ks1 ++ ks2) = bumpAll (bumpAll m ks1) ks2 := by
  simp [bumpAll, List.foldl_append]

theorem keyCount_cons {κ : Type} [DecidableEq κ] (x : κ) (ks : List κ) (k : κ) :
    keyCount (x :: ks) k = keyCount ks k + (if x = k then 1 else 0) := by
  by_cases h : x = k <;> simp [keyCount, List.countP_cons, h]

theorem keyCount_append {κ : Type} [DecidableEq κ] (l1 l2 : List κ) (k : κ) :
    keyCount (l1 ++ l2) k = keyCount l1 k + keyCount l2 k := by
  simp [keyCount, List.countP_append]

theorem wlookup_bumpAll_some {κ : Type} [DecidableEq κ] (k : κ) (ks : List κ) :
    ∀ (m : List (κ × Nat)) (v : Nat), wlookup k m = some v →
      wlookup k (bumpAll m ks) = some (v + keyCount ks k) := by
  induction ks with
  | nil => intro m v h; simpa [bumpAll, keyCount] using h
  | cons x ks ih =>
      intro m v h
      show wlookup k (bumpAll (bump x m) ks) = _
      by_cases hx : x = k
      · have h1 : wlookup k (bump x m) = some (v + 1) := by
          rw [hx, wlookup_bump_self, h]
          rfl
        rw [ih _ _ h1, keyCount_cons, if_pos hx]
        congr 1
        omega
      · have h1 : wlookup k (bump x m) = some v := by
          rw [wlookup_bump_ne _ hx, h]
        rw [ih _ _ h1, keyCount_cons, if_neg hx]
        simp

theorem wlookup_bumpAll_none {κ : Type} [DecidableEq κ] (k : κ) (ks : List κ) :
    ∀ m : List (κ × Nat), wlookup k m = none →
      wlookup k (bumpAll m ks) =
        (if keyCount ks k = 0 then none else some (keyCount ks k)) := by
  induction ks with
  | nil => intro m h; simpa [bumpAll, keyCount] using h
  | cons x ks ih =>
      intro m h
      show wlookup k (bumpAll (bump x m) ks) = _
      by_cases hx : x = k
      · have h1 : wlookup k (bump x m) = some 1 := by
          rw [hx, wlookup_bump_self, h]
          rfl
        rw [wlookup_bumpAll_some _ _ _ _ h1, keyCount_cons, if_pos hx]
        have hz : keyCount ks k + 1 ≠ 0 := by omega
        rw [if_neg hz]
        congr 1
        omega
      · have h1 : wlookup k (bump x m) = none := by
          rw [wlookup_bump_ne _ hx, h]
        rw [ih _ h1, keyCount_cons, if_neg hx]
        simp

theorem wlookup_bumpAll_empty {κ : Type} [DecidableEq κ] (k : κ) (ks : List κ) :
    wlookup k (bumpAll [] ks) =
      (if keyCount ks k = 0 then none else some (keyCount ks k)) :=
  wlookup_bumpAll_none k ks [] rfl

theorem foldl_bumpAll_bind {κ α : Type} [DecidableEq κ] (f : α → List κ) :
    ∀ (docs : List α) (m : List (κ × Nat)),
      docs.foldl (fun m d => bumpAll m (f d)) m = bumpAll m (docs.bind f) := by
  intro docs
  induction docs with
  | nil => intro m; simp [bumpAll]
  | cons d ds ih =>
      intro m
      simp only [List.foldl_cons, List.cons_bind, bumpAll_append]
      exact ih (bumpAll m (f d))

/-! The keys of the accumulated counters are duplicate-free, so the
`add_edge` loop copies the counter into the graph verbatim. -/

theorem wlookup_eq_none_iff {κ : Type} [DecidableEq κ] (k : κ) (m : List (κ × Nat)) :
    wlookup k m = none ↔ k ∉ keys m := by
  induction m with
  | nil => simp [wlookup, keys]
  | cons hd tl ih =>
      obtain ⟨k0, v⟩ := hd
      by_cases h : k0 = k <;> simp [wlookup, keys, h, ih] <;> tauto

theorem keys_bump {κ : Type} [DecidableEq κ] (k : κ) (m : List (κ × Nat)) :
    keys (bump k m) = if k ∈ keys m then keys m else keys m ++ [k] := by
  induction m with
  | nil => simp [bump, keys]
  | cons hd tl ih =>
      obtain ⟨k0, v⟩ := hd
      simp only [keys] at ih ⊢
      by_cases h : k0 = k
      · simp [bump, h]
      · by_cases h2 : k ∈ tl.map Prod.fst
        · simp [bump, h, ih, h2, Ne.symm h]
        · simp [bump, h, ih, h2, Ne.symm h]

theorem keysNodup_bump {κ : Type} [DecidableEq κ] (k : κ) (m : List (κ × Nat))
    (h : (keys m).Nodup) : (keys (bump k m)).Nodup := by
  rw [keys_bump]
  by_cases hk : k ∈ keys m
  · simpa [hk] using h
  · simp [hk, List.nodup_append, h]

theorem keysNodup_bumpAll {κ : Type} [DecidableEq κ] (ks : List κ) :
    ∀ m : List (κ × Nat), (keys m).Nodup → (keys (bumpAll m ks)).Nodup := by
  induction ks with
  | nil => intro m h; exact h
  | cons x ks ih => intro m h; exact ih _ (keysNodup_bump x m h)

theorem addNode_edges (g : DiGraph) (n : String) : (addNode g n).edges = g.edges := by
  unfold addNode
  split <;> rfl

theorem add_edge_edges (g : DiGraph) (u v : String) (w : Nat) :
    (add_edge g u v w).edges = setEdge g.edges (u, v) w := by
  simp [add_edge, addNode_edges]

theorem setEdge_absent (l : List ((String × String) × Nat)) (k : String × String) (w : Nat)
    (h : wlookup k l = none) : setEdge l k w = l ++ [(k, w)] := by
  induction l with
  | nil => rfl
  | cons hd tl ih =>
      obtain ⟨k0, w0⟩ := hd
      by_cases hk : k0 = k
      · simp [wlookup, hk] at h
      · simp only [wlookup, if_neg hk] at h
        simp [setEdge, hk, ih h]

theorem wlookup_append_none {κ : Type} [DecidableEq κ] (l1 l2 : List (κ × Nat)) (k : κ)
    (h : wlookup k l1 = none) : wlookup k (l1 ++ l2) = wlookup k l2 := by
  induction l1 with
  | nil => rfl
  | cons hd tl ih =>
      obtain ⟨k0, v⟩ := hd
      by_cases hk : k0 = k
      · simp [wlookup, hk] at h
      · simp only [wlookup, if_neg hk] at h
        simp [wlookup, hk, ih h]

theorem foldl_add_edge_edges :
    ∀ (l : List ((String × String) × Nat)) (g : DiGraph), (keys l).Nodup →
      (∀ kw ∈ l, wlookup kw.1 g.edges = none) →
      (l.foldl (fun g kw => add_edge g kw.1.1 kw.1.2 kw.2) g).edges = g.edges ++ l := by
  intro l
  induction l with
  | nil => intro g _ _; simp
  | cons kw rest ih =>
      intro g hnd habs
      have hkw : (add_edge g kw.1.1 kw.1.2 kw.2).edges = g.edges ++ [kw] := by
        rw [add_edge_edges]
        have := setEdge_absent g.edges kw.1 kw.2 (habs kw (List.mem_cons_self kw rest))
        simpa using this
      have hndtl : (keys rest).Nodup := by
        simp [keys] at hnd
        exact hnd.2
      have hhd : kw.1 ∉ keys rest := by
        simp only [keys, List.map_cons, List.nodup_cons] at hnd
        exact hnd.1
      have habs2 : ∀ kw2 ∈ rest, wlookup kw2.1 (g.edges ++ [kw]) = none := by
        intro kw2 hmem
        rw [wlookup_append_none _ _ _ (habs kw2 (List.mem_cons_of_mem kw hmem))]
        have hne : kw.1 ≠ kw2.1 := by
          intro hq
          exact hhd (hq ▸ List.mem_map_of_mem Prod.fst hmem)
        simp [wlookup, hne]
      calc (List.foldl (fun g kw => add_edge g kw.1.1 kw.1.2 kw.2)
              (add_edge g kw.1.1 kw.1.2 kw.2) rest).edges
          = (add_edge g kw.1.1 kw.1.2 kw.2).edges ++ rest := by
            rw [ih (add_edge g kw.1.1 kw.1.2 kw.2) hndtl (by rw [hkw]; exact habs2)]
        _ = g.edges ++ kw :: rest := by rw [hkw]; simp

/-- The target keys of the mention counter, one per mention token. -/
def mentionKeys (docs : List Document) : List (String × String) :=
  docs.bind fun d => d.mentions.map fun m => (d.author_id, mentionClean m)

theorem build_mention_edges_eq (docs : List Document) :
    build_mention_edges docs = bumpAll [] (mentionKeys docs) :=
  foldl_bumpAll_bind _ docs []

theorem build_mention_graph_edges (docs : List Document) :
    (build_mention_graph docs).edges = build_mention_edges docs := by
  have hnd : (keys (build_mention_edges docs)).Nodup := by
    rw [build_mention_edges_eq]
    exact keysNodup_bumpAll _ [] (by simp [keys])
  have := foldl_add_edge_edges (build_mention_edges docs) ⟨[], []⟩ hnd
    (by intro kw _; rfl)
  simpa [build_mention_graph] using this

/-- Total number of mention tokens, across the batch, whose document
author is `a` and whose cleaned token is `t` — one per increment the code
performs on the key `(a, t)`. -/
def mentionTokenCount (docs : List Document) (a t : String) : Nat :=
  keyCount (mentionKeys docs) (a, t)

/-- Number of distinct documents authored by `a` that mention `t` — the
quantity the claim says the edge weight equals. -/
def mentionDocCount (docs : List Document) (a t : String) : Nat :=
  docs.countP fun d => decide (d.author_id = a) && decide (t ∈ d.mentions.map mentionClean)

theorem keyCount_nodup {κ : Type} [DecidableEq κ] (l : List κ) (k : κ) (h : l.Nodup) :
    keyCount l k = if k ∈ l then 1 else 0 := by
  induction l with
  | nil => simp [keyCount]
  | cons x xs ih =>
      rcases List.nodup_cons.mp h with ⟨hx, hxs⟩
      rw [keyCount_cons, ih hxs]
      by_cases hk : x = k
      · have hkm : k ∉ xs := fun hm => hx (by rw [hk]; exact hm)
        simp [hk, hkm]
      · simp only [List.mem_cons, if_neg hk]
        by_cases hm : k ∈ xs <;> simp [hm, Ne.symm hk]

theorem mention_keyCount_doc (d : Document) (a t : String) :
    keyCount (d.mentions.map fun m => (d.author_id, mentionClean m)) (a, t) =
      if d.author_id = a then keyCount (d.mentions.map mentionClean) t else 0 := by
  by_cases h : d.author_id = a
  · rw [if_pos h]
    simp only [keyCount, List.countP_map]
    apply List.countP_congr
    intro m _
    simp [Function.comp, h, Prod.ext_iff]
  · rw [if_neg h]
    simp only [keyCount, List.countP_map]
    rw [List.countP_eq_zero]
    intro m _
    simp [Function.comp, Prod.ext_iff, h]

theorem mentionTokenCount_eq_docCount (docs : List Document) (a t : String)
    (h : ∀ d ∈ docs, (d.mentions.map mentionClean).Nodup) :
    mentionTokenCount docs a t = mentionDocCount docs a t := by
  induction docs with
  | nil => rfl
  | cons d ds ih =>
      have hd := h d (List.mem_cons_self d ds)
      have hds : ∀ x ∈ ds, (x.mentions.map mentionClean).Nodup :=
        fun x hx => h x (List.mem_cons_of_mem d hx)
      have e1 : mentionKeys (d :: ds) =
          (d.mentions.map fun m => (d.author_id, mentionClean m)) ++ mentionKeys ds := by
        simp [mentionKeys]
      simp only [mentionTokenCount] at ih ⊢
      rw [e1, keyCount_append, mention_keyCount_doc, keyCount_nodup _ _ hd, ih hds]
      simp only [mentionDocCount, List.countP_cons]
      by_cases h1 : d.author_id = a
      · by_cases h2 : t ∈ d.mentions.map mentionClean
        · simp [h1, h2]
          omega
        · simp [h1, h2]
      · simp [h1]

/-- C3 (amended): in the built mention graph the weight of the directed
edge from `a` to `t` is the total number of mention tokens by author `a`
that clean to `t` (absent exactly when that count is zero; self-mentions,
where `a` and `t` coincide, are permitted and counted like any other); the
claim's formulation — weight equals the number of documents by that author
mentioning that target — holds whenever no document repeats a mention of
the same (cleaned) target. -/
theorem C3_mention_weight (docs : List Document) (a t : String) :
    wlookup (a, t) (build_mention_graph docs).edges =
      (if mentionTokenCount docs a t = 0 then none
       else some (mentionTokenCount docs a t)) ∧
    ((∀ d ∈ docs, (d.mentions.map mentionClean).Nodup) →
      mentionTokenCount docs a t = mentionDocCount docs a t) := by
  refine ⟨?_, mentionTokenCount_eq_docCount docs a t⟩
  rw [build_mention_graph_edges, build_mention_edges_eq, wlookup_bumpAll_empty]
  rfl

/-- Witness for C3 at the self-mention batch: the single document by `u1`
mentioning itself yields the counted self-loop of weight 1, and with no
duplicated mentions the token count agrees with the document count. -/
theorem C3_mention_weight_witness :
    (∀ d ∈ docsSelf, (d.mentions.map mentionClean).Nodup) ∧
    (wlookup ("u1", "u1") (build_mention_graph docsSelf).edges =
      (if mentionTokenCount docsSelf "u1" "u1" = 0 then none
       else some (mentionTokenCount docsSelf "u1" "u1")) ∧
     mentionTokenCount docsSelf "u1" "u1" = mentionDocCount docsSelf "u1" "u1") :=
  ⟨by decide, (C3_mention_weight docsSelf "u1" "u1").1,
    (C3_mention_weight docsSelf "u1" "u1").2 (by decide)⟩

/-! Counting hashtag pairs: the canonical pair order and the pairs one
document generates. -/

theorem lexLe_antisymm : ∀ x y : List Char, lexLe x y = true → lexLe y x = true → x = y := by
  intro x
  induction x with
  | nil =>
      intro y h1 h2
      cases y with
      | nil => rfl
      | cons b bs => simp [lexLe] at h2
  | cons a as ih =>
      intro y h1 h2
      cases y with
      | nil => simp [lexLe] at h1
      | cons b bs =>
          by_cases hab : a = b
          · subst hab
            simp only [lexLe, if_pos rfl] at h1 h2
            rw [ih bs h1 h2]
          · simp only [lexLe, if_neg hab, if_neg (Ne.symm hab), decide_eq_true_eq] at h1 h2
            exact absurd h2 (lt_asymm h1)

theorem strLe_antisymm (a b : String) (h1 : strLe a b = true) (h2 : strLe b a = true) :
    a = b := by
  cases a with
  | mk da =>
      cases b with
      | mk db => rw [lexLe_antisymm da db h1 h2]

theorem sortedPair_left (a b : String) (hab : a ≠ b) (hle : strLe a b = true) (y : String) :
    sortedPair a y = (a, b) ↔ y = b := by
  unfold sortedPair
  split
  next h =>
    constructor
    · intro he; exact congrArg Prod.snd he
    · intro hy; rw [hy]
  next h =>
    constructor
    · intro he; exact absurd (congrArg Prod.snd he) hab
    · intro hy; exact absurd (by rw [hy]; exact hle) h

theorem sortedPair_right (a b : String) (hab : a ≠ b) (hle : strLe a b = true) (y : String) :
    sortedPair b y = (a, b) ↔ y = a := by
  unfold sortedPair
  split
  next h =>
    constructor
    · intro he; exact absurd (congrArg Prod.fst he).symm hab
    · intro hy
      have h2 : strLe b a = true := by rw [← hy]; exact h
      exact absurd (strLe_antisymm a b hle h2) hab
  next h =>
    constructor
    · intro he; exact congrArg Prod.fst he
    · intro hy; rw [hy]

theorem sortedPair_other (a b x y : String) (hxa : x ≠ a) (hxb : x ≠ b) :
    sortedPair x y ≠ (a, b) := by
  unfold sortedPair
  split
  · intro he; exact hxa (congrArg Prod.fst he)
  · intro he; exact hxb (congrArg Prod.snd he)

theorem pairsAux_mem : ∀ (h : List String) (u v : String),
    (u, v) ∈ pairsAux h → u ∈ h ∧ v ∈ h := by
  intro h
  induction h with
  | nil => intro u v hm; simp [pairsAux] at hm
  | cons x rest ih =>
      intro u v hm
      simp only [pairsAux, List.mem_append] at hm
      rcases hm with hm | hm
      · rcases List.mem_map.mp hm with ⟨y, hy, he⟩
        unfold sortedPair at he
        split at he
        · cases he
          exact ⟨List.mem_cons_self x rest, List.mem_cons_of_mem x hy⟩
        · cases he
          exact ⟨List.mem_cons_of_mem x hy, List.mem_cons_self x rest⟩
      · rcases ih u v hm with ⟨h1, h2⟩
        exact ⟨List.mem_cons_of_mem x h1, List.mem_cons_of_mem x h2⟩

theorem pairsAux_count_zero_left (h : List String) (a b : String) (ha : a ∉ h) :
    keyCount (pairsAux h) (a, b) = 0 := by
  rw [keyCount]
  apply List.countP_eq_zero.mpr
  intro p hp hq
  have hpe : p = (a, b) := of_decide_eq_true hq
  subst hpe
  exact ha (pairsAux_mem h a b hp).1

theorem pairsAux_count_zero_right (h : List String) (a b : String) (hb : b ∉ h) :
    keyCount (pairsAux h) (a, b) = 0 := by
  rw [keyCount]
  apply List.countP_eq_zero.mpr
  intro p hp hq
  have hpe : p = (a, b) := of_decide_eq_true hq
  subst hpe
  exact hb (pairsAux_mem h a b hp).2

theorem pairsAux_count (a b : String) (hab : a ≠ b) (hle : strLe a b = true) :
    ∀ h : List String, h.Nodup →
      keyCount (pairsAux h) (a, b) = if a ∈ h ∧ b ∈ h then 1 else 0 := by
  intro h
  induction h with
  | nil => intro _; simp [pairsAux, keyCount]
  | cons x rest ih =>
      intro hnd
      rcases List.nodup_cons.mp hnd with ⟨hx, hrest⟩
      have hsplit : keyCount (pairsAux (x :: rest)) (a, b) =
          keyCount (rest.map fun y => sortedPair x y) (a, b) +
            keyCount (pairsAux rest) (a, b) := by
        simp only [pairsAux]
        exact keyCount_append _ _ _
      rw [hsplit]
      by_cases hxa : x = a
      · subst hxa
        have hmap : keyCount (rest.map fun y => sortedPair x y) (x, b) = keyCount rest b := by
          simp only [keyCount, List.countP_map]
          apply List.countP_congr
          intro y _
          simp only [Function.comp_apply, decide_eq_true_eq]
          exact sortedPair_left x b hab hle y
        rw [hmap, pairsAux_count_zero_left rest x b hx, keyCount_nodup rest b hrest]
        by_cases hbm : b ∈ rest
        · simp [hbm, List.mem_cons]
        · simp [hbm, List.mem_cons, Ne.symm hab]
      · by_cases hxb : x = b
        · subst hxb
          have hmap : keyCount (rest.map fun y => sortedPair x y) (a, x) = keyCount rest a := by
            simp only [keyCount, List.countP_map]
            apply List.countP_congr
            intro y _
            simp only [Function.comp_apply, decide_eq_true_eq]
            exact sortedPair_right a x hab hle y
          rw [hmap, pairsAux_count_zero_right rest a x hx, keyCount_nodup rest a hrest]
          by_cases ham : a ∈ rest
          · simp [ham, List.mem_cons]
          · simp [ham, List.mem_cons, hab]
        · have hmap : keyCount (rest.map fun y => sortedPair x y) (a, b) = 0 := by
            rw [keyCount]
            apply List.countP_eq_zero.mpr
            intro p hp hq
            have hpe : p = (a, b) := of_decide_eq_true hq
            rcases List.mem_map.mp hp with ⟨y, _, he⟩
            exact absurd (he.trans hpe) (sortedPair_other a b x y hxa hxb)
          rw [hmap, ih hrest]
          simp [List.mem_cons, Ne.symm hxa, Ne.symm hxb]

theorem pairsAux_self_zero (c : String) :
    ∀ h : List String, h.Nodup → keyCount (pairsAux h) (c, c) = 0 := by
  intro h
  induction h with
  | nil => intro _; simp [pairsAux, keyCount]
  | cons x rest ih =>
      intro hnd
      rcases List.nodup_cons.mp hnd with ⟨hx, hrest⟩
      have hsplit : keyCount (pairsAux (x :: rest)) (c, c) =
          keyCount (rest.map fun y => sortedPair x y) (c, c) +
            keyCount (pairsAux rest) (c, c) := by
        simp only [pairsAux]
        exact keyCount_append _ _ _
      rw [hsplit, ih hrest]
      have hmap : keyCount (rest.map fun y => sortedPair x y) (c, c) = 0 := by
        rw [keyCount]
        apply List.countP_eq_zero.mpr
        intro p hp hq
        have hpe : p = (c, c) := of_decide_eq_true hq
        rcases List.mem_map.mp hp with ⟨y, hy, he⟩
        have hcc := he.trans hpe
        unfold sortedPair at hcc
        split at hcc
        · have h1 : x = c := congrArg Prod.fst hcc
          have h2 : y = c := congrArg Prod.snd hcc
          exact hx (by rw [h1, ← h2]; exact hy)
        · have h1 : y = c := congrArg Prod.fst hcc
          have h2 : x = c := congrArg Prod.snd hcc
          exact hx (by rw [h2, ← h1]; exact hy)
      rw [hmap]

theorem docPairList_eq (h : List String) : docPairList h = pairsAux h := by
  cases h with
  | nil => rfl
  | cons x t =>
      cases t with
      | nil => rfl
      | cons y r =>
          unfold docPairList
          have hlen : (x :: y :: r).length ≥ 2 := by
            simp only [List.length_cons]
            omega
          rw [if_pos hlen]

/-- The canonical pair keys the whole batch generates, one per iteration
of the nested index loop. -/
def hashtagPairKeys (docs : List Document) : List (String × String) :=
  docs.bind fun d => docPairList d.hashtags

/-- Number of ordered-index pairings across the batch that produce the
canonical pair of `a` and `b` — one per increment of the counter key. -/
def pairTokenCount (docs : List Document) (a b : String) : Nat :=
  keyCount (hashtagPairKeys docs) (a, b)

/-- Number of distinct documents whose hashtag list contains both `a` and
`b` — the quantity the claim says the pair weight equals. -/
def pairDocCount (docs : List Document) (a b : String) : Nat :=
  docs.countP fun d => decide (a ∈ d.hashtags) && decide (b ∈ d.hashtags)

theorem build_hashtag_pairs_eq (docs : List Document) :
    build_hashtag_pairs docs = bumpAll [] (hashtagPairKeys docs) :=
  foldl_bumpAll_bind _ docs []

theorem pairTokenCount_eq_docCount (docs : List Document) (a b : String)
    (hab : a ≠ b) (hle : strLe a b = true) (h : ∀ d ∈ docs, d.hashtags.Nodup) :
    pairTokenCount docs a b = pairDocCount docs a b := by
  induction docs with
  | nil => rfl
  | cons d ds ih =>
      have hd := h d (List.mem_cons_self d ds)
      have hds : ∀ x ∈ ds, x.hashtags.Nodup := fun x hx => h x (List.mem_cons_of_mem d hx)
      have e1 : hashtagPairKeys (d :: ds) = docPairList d.hashtags ++ hashtagPairKeys ds := by
        simp [hashtagPairKeys]
      simp only [pairTokenCount] at ih ⊢
      rw [e1, keyCount_append, docPairList_eq, pairsAux_count a b hab hle d.hashtags hd,
        ih hds]
      simp only [pairDocCount, List.countP_cons]
      by_cases h1 : a ∈ d.hashtags
      · by_cases h2 : b ∈ d.hashtags
        · simp [h1, h2]
          omega
        · simp [h1, h2]
      · simp [h1]

/-- C2 (amended): the pair counter of the hashtag builder pairs each
document's hashtag list exactly as given — the weight stored for the
canonical pair of two distinct hashtags is the number of index pairs
`i < j` across the batch whose two entries sort to that pair, which can
exceed the number of documents containing both when a document repeats a
hashtag, and a repeated hashtag is paired with itself.  For batches whose
documents carry duplicate-free hashtag lists the claim is recovered: the
weight equals the number of distinct documents containing both hashtags,
and no hashtag is ever paired with itself. -/
theorem C2_pair_weights (docs : List Document) (a b : String)
    (hab : a ≠ b) (hle : strLe a b = true) :
    wlookup (a, b) (build_hashtag_pairs docs) =
      (if pairTokenCount docs a b = 0 then none
       else some (pairTokenCount docs a b)) ∧
    ((∀ d ∈ docs, d.hashtags.Nodup) →
      pairTokenCount docs a b = pairDocCount docs a b ∧
      ∀ c : String, wlookup (c, c) (build_hashtag_pairs docs) = none) := by
  refine ⟨?_, fun h => ⟨pairTokenCount_eq_docCount docs a b hab hle h, fun c => ?_⟩⟩
  · rw [build_hashtag_pairs_eq, wlookup_bumpAll_empty]
    rfl
  · rw [build_hashtag_pairs_eq, wlookup_bumpAll_empty]
    have hz : keyCount (hashtagPairKeys docs) (c, c) = 0 := by
      rw [keyCount]
      apply List.countP_eq_zero.mpr
      intro p hp hq
      have hpe : p = (c, c) := of_decide_eq_true hq
      rcases List.mem_bind.mp hp with ⟨d, hd, hpd⟩
      rw [docPairList_eq] at hpd
      have hzero := pairsAux_self_zero c d.hashtags (h d hd)
      rw [keyCount] at hzero
      have := List.countP_eq_zero.mp hzero p hpd
      rw [hpe] at this
      simp at this
    rw [hz]
    rfl

/-- Witness for C2 at the spec scenario batch, whose documents carry
duplicate-free hashtag lists: the canonical pair of hashtags a and b has
counted weight equal to the number of documents containing both, and no
self-pair is stored. -/
theorem C2_pair_weights_witness :
    (("#a" : String) ≠ "#b" ∧ strLe "#a" "#b" = true ∧
      (∀ d ∈ docs7, d.hashtags.Nodup)) ∧
    (wlookup ("#a", "#b") (build_hashtag_pairs docs7) =
      (if pairTokenCount docs7 "#a" "#b" = 0 then none
       else some (pairTokenCount docs7 "#a" "#b")) ∧
     (pairTokenCount docs7 "#a" "#b" = pairDocCount docs7 "#a" "#b" ∧
      ∀ c : String, wlookup (c, c) (build_hashtag_pairs docs7) = none)) :=
  ⟨⟨by decide, by decide, by decide⟩,
   (C2_pair_weights docs7 "#a" "#b" (by decide) (by decide)).1,
   (C2_pair_weights docs7 "#a" "#b" (by decide) (by decide)).2 (by decide)⟩

/-! The ranking pipeline of `get_top_nodes` (lines 146-167): score lists,
the stable descending sort of `sorted(node_scores, key=lambda x: x[1],
reverse=True)`, and the Python slice `sorted_nodes[:top_n]`. -/

/-- In-degree of a node: the number of stored edges whose target is the
node, as `DiGraph.in_degree` reports for a simple directed graph. -/
def in_degree (g : DiGraph) (n : String) : Nat :=
  (g.edges.filter fun e => decide (e.1.2 = n)).length

/-- The `node_scores` list of the degree branch (line 153): one
`(node, in_degree)` pair per node, in node insertion order.  Python
compares the integer scores inside one numeric tower, embedded here
into the rationals. -/
def degreeScores (g : DiGraph) : List (String × Rat) :=
  g.nodes.map fun n => (n, (in_degree g n : Rat))

/-- Stable descending insertion: the incoming element goes before the
first element whose score is less than or equal to its own.  Elements
already in the list were later in the original order, so ties stay in
original order — the stability contract of Python `sorted`. -/
def insertDesc (x : String × Rat) : List (String × Rat) → List (String × Rat)
  | [] => [x]
  | y :: ys => if y.2 ≤ x.2 then x :: y :: ys else y :: insertDesc x ys

/-- Models `sorted(node_scores, key=lambda x: x[1], reverse=True)`: the
stable descending sort by score (a stable descending permutation is
unique, so any implementation with those properties is the Python
result). -/
def sortDesc : List (String × Rat) → List (String × Rat)
  | [] => []
  | x :: xs => insertDesc x (sortDesc xs)

/-- Python slice `l[:n]` for an integer bound: a nonnegative bound takes
that many leading elements (all of them when the bound exceeds the
length); a negative bound drops that many trailing elements, clamping at
the empty list. -/
def pySlice {α : Type} (l : List α) (n : Int) : List α :=
  if 0 ≤ n then l.take n.toNat else l.take (l.length - (-n).toNat)

/-- Lines 166-167 of the source: sort the scores descending, then return
the slice `[:top_n]`. -/
def sortDescTrunc (scores : List (String × Rat)) (n : Int) : List (String × Rat) :=
  pySlice (sortDesc scores) n

/-- The exception `networkx.eigenvector_centrality` raises when power
iteration exhausts `max_iter` without meeting the tolerance. -/
structure PowerIterationFailedConvergence where
  iterations : Nat
deriving DecidableEq, Repr

/-- The external `networkx` centrality routines that `get_top_nodes`
dispatches to.  Betweenness and closeness centrality always return a
score mapping; eigenvector centrality either converges to a score mapping
or raises `PowerIterationFailedConvergence`. -/
structure CentralityLib where
  betweenness : DiGraph → List (String × Rat)
  closeness : DiGraph → List (String × Rat)
  eigenvector : DiGraph → Except PowerIterationFailedConvergence (List (String × Rat))

/-- `get_top_nodes(graph, metric, top_n)` (lines 146-167): an empty graph
returns the empty list at once; the metric string is dispatched over the
four known names, any other string returning the plain empty list; the
chosen scores are stable-sorted descending and sliced.  The source wraps
no call in an exception handler, so a raise from the eigenvector routine
propagates to the caller, which the embedding renders in the `Except`
result. -/
def get_top_nodes (lib : CentralityLib) (g : DiGraph) (metric : String) (top_n : Int) :
    Except PowerIterationFailedConvergence (List (String × Rat)) :=
  if g.nodes.length = 0 then Except.ok []
  else if metric = "degree" then Except.ok (sortDescTrunc (degreeScores g) top_n)
  else if metric = "betweenness" then Except.ok (sortDescTrunc (lib.betweenness g) top_n)
  else if metric = "closeness" then Except.ok (sortDescTrunc (lib.closeness g) top_n)
  else if metric = "eigenvector" then
    match lib.eigenvector g with
    | Except.error e => Except.error e
    | Except.ok scores => Except.ok (sortDescTrunc scores top_n)
  else Except.ok []

/-- An instantiation of the external centrality routines for concrete
inputs: its eigenvector routine fails to converge, reporting the
iteration cap of 1000 the source passes as `max_iter`. -/
def lib1 : CentralityLib where
  betweenness := fun _ => []
  closeness := fun _ => []
  eigenvector := fun _ => Except.error ⟨1000⟩

theorem insertDesc_perm (x : String × Rat) (l : List (String × Rat)) :
    (insertDesc x l).Perm (x :: l) := by
  induction l with
  | nil => exact List.Perm.refl _
  | cons y ys ih =>
      unfold insertDesc
      split
      · exact List.Perm.refl _
      · exact List.Perm.trans (List.Perm.cons y ih) (List.Perm.swap x y ys)

theorem sortDesc_perm (l : List (String × Rat)) : (sortDesc l).Perm l := by
  induction l with
  | nil => exact List.Perm.refl _
  | cons x xs ih =>
      exact List.Perm.trans (insertDesc_perm x (sortDesc xs)) (List.Perm.cons x ih)

theorem insertDesc_sorted (x : String × Rat) (l : List (String × Rat))
    (h : l.Pairwise (fun u v => v.2 ≤ u.2)) :
    (insertDesc x l).Pairwise (fun u v => v.2 ≤ u.2) := by
  induction l with
  | nil => simp [insertDesc]
  | cons y ys ih =>
      rcases List.pairwise_cons.mp h with ⟨hy, hys⟩
      unfold insertDesc
      split
      next hc =>
        apply List.pairwise_cons.mpr
        refine ⟨?_, h⟩
        intro z hz
        rcases List.mem_cons.mp hz with hz1 | hz2
        · rw [hz1]; exact hc
        · exact le_trans (hy z hz2) hc
      next hc =>
        apply List.pairwise_cons.mpr
        constructor
        · intro z hz
          have hz0 : z ∈ x :: ys := (insertDesc_perm x ys).mem_iff.mp hz
          rcases List.mem_cons.mp hz0 with hz1 | hz2
          · rw [hz1]; exact le_of_lt (lt_of_not_le hc)
          · exact hy z hz2
        · exact ih hys

theorem sortDesc_sorted (l : List (String × Rat)) :
    (sortDesc l).Pairwise (fun u v => v.2 ≤ u.2) := by
  induction l with
  | nil => simp [sortDesc]
  | cons x xs ih => exact insertDesc_sorted x (sortDesc xs) ih

theorem insertDesc_filter (x : String × Rat) (l : List (String × Rat)) (s : Rat) :
    (insertDesc x l).filter (fun u => decide (u.2 = s)) =
      (x :: l).filter (fun u => decide (u.2 = s)) := by
  induction l with
  | nil => rfl
  | cons y ys ih =>
      unfold insertDesc
      split
      next hc => rfl
      next hc =>
        by_cases hys2 : y.2 = s
        · have hx2 : ¬ x.2 = s := by
            rw [← hys2]
            exact ne_of_lt (lt_of_not_le hc)
          simp [List.filter_cons, hys2, hx2, ih]
        · simp [List.filter_cons, hys2, ih]

theorem sortDesc_filter (l : List (String × Rat)) (s : Rat) :
    (sortDesc l).filter (fun u => decide (u.2 = s)) =
      l.filter (fun u => decide (u.2 = s)) := by
  induction l with
  | nil => rfl
  | cons x xs ih =>
      rw [sortDesc, insertDesc_filter]
      simp [List.filter_cons, ih]

theorem take_append_take {α : Type} (l : List α) (m m2 : Nat) (h : m ≤ m2) :
    l.take m ++ (l.take m2).drop m = l.take m2 := by
  have h1 : (l.take m2).take m = l.take m := by
    rw [List.take_take, min_eq_left h]
  calc l.take m ++ (l.take m2).drop m
      = (l.take m2).take m ++ (l.take m2).drop m := by rw [h1]
    _ = l.take m2 := List.take_append_drop m (l.take m2)

/-- C4 (amended): for every score list, the sort of lines 166-167 is a
permutation of the scores, descending by score, and stable — elements of
equal score keep the order of the score list, which for the degree branch
is the node insertion order of the graph — and the result is the Python
slice of the sorted list: bound 0 gives the empty list, a bound at least
the length gives the whole sorted list, and a negative bound drops that
many trailing entries rather than giving the empty list; on a nonempty
graph, ranking by degree returns exactly this sorted-and-sliced list. -/
theorem C4_top_ranking (scores : List (String × Rat)) (n : Int) :
    (sortDesc scores).Perm scores ∧
    (sortDesc scores).Pairwise (fun u v => v.2 ≤ u.2) ∧
    (∀ s : Rat, (sortDesc scores).filter (fun u => decide (u.2 = s)) =
      scores.filter (fun u => decide (u.2 = s))) ∧
    sortDescTrunc scores n = pySlice (sortDesc scores) n ∧
    (n = 0 → sortDescTrunc scores n = []) ∧
    ((scores.length : Int) ≤ n → sortDescTrunc scores n = sortDesc scores) ∧
    (n < 0 → sortDescTrunc scores n =
      (sortDesc scores).take (scores.length - (-n).toNat)) ∧
    (∀ (lib : CentralityLib) (g : DiGraph), g.nodes.length ≠ 0 →
      get_top_nodes lib g "degree" n = Except.ok (sortDescTrunc (degreeScores g) n)) := by
  refine ⟨sortDesc_perm scores, sortDesc_sorted scores, sortDesc_filter scores,
    rfl, ?_, ?_, ?_, ?_⟩
  · intro hn
    rw [hn]
    simp [sortDescTrunc, pySlice]
  · intro hn
    have hlen : (sortDesc scores).length = scores.length := (sortDesc_perm scores).length_eq
    have h0 : (0 : Int) ≤ n := le_trans (Int.ofNat_nonneg _) hn
    simp only [sortDescTrunc, pySlice, if_pos h0]
    apply List.take_of_length_le
    omega
  · intro hn
    have hlen : (sortDesc scores).length = scores.length := (sortDesc_perm scores).length_eq
    simp only [sortDescTrunc, pySlice, if_neg (not_le.mpr hn), hlen]
  · intro lib g hg
    simp [get_top_nodes, hg]

/-- Witness for C4 at the two-node mention graph and bound 3 (more than
the node count): the degree ranking returns the whole sorted list. -/
theorem C4_top_ranking_witness :
    (((degreeScores g2).length : Int) ≤ 3 ∧ g2.nodes.length ≠ 0) ∧
    (sortDescTrunc (degreeScores g2) 3 = sortDesc (degreeScores g2) ∧
     get_top_nodes lib1 g2 "degree" 3 = Except.ok (sortDescTrunc (degreeScores g2) 3)) :=
  ⟨⟨by decide, by decide⟩,
   (C4_top_ranking (degreeScores g2) 3).2.2.2.2.2.1 (by decide),
   (C4_top_ranking (degreeScores g2) 3).2.2.2.2.2.2.2 lib1 g2 (by decide)⟩

/-- C4 counterexample: the claim says every bound at most 0 returns the
empty sequence, but ranking the two-node mention graph by degree with
bound -1 returns the one-element list holding the higher-scoring node —
the Python slice drops one trailing element instead of everything. -/
theorem C4_counterexample :
    get_top_nodes lib1 g2 "degree" (-1) = Except.ok [("u2", 1)] ∧
    (-1 : Int) ≤ 0 := by
  exact ⟨rfl, by decide⟩

/-- C8 (amended): for every score list, the ranking with bound `k` is a
prefix of the ranking with bound `k + 1`, for every integer `k` other
than -1; at `k = -1` the slice collapses from all-but-one entries to the
empty list, where the monotonicity fails. -/
theorem C8_top_n_monotone (scores : List (String × Rat)) (k : Int) (hk : k ≠ -1) :
    ∃ t, sortDescTrunc scores k ++ t = sortDescTrunc scores (k + 1) := by
  unfold sortDescTrunc
  by_cases h0 : 0 ≤ k
  · have h1 : (0 : Int) ≤ k + 1 := by omega
    simp only [pySlice, if_pos h0, if_pos h1]
    refine ⟨((sortDesc scores).take (k + 1).toNat).drop k.toNat,
      take_append_take _ _ _ ?_⟩
    omega
  · have h2 : k < 0 := by omega
    have h3 : k + 1 < 0 := by omega
    simp only [pySlice, if_neg (not_le.mpr h2), if_neg (not_le.mpr h3)]
    refine ⟨((sortDesc scores).take ((sortDesc scores).length - (-(k + 1)).toNat)).drop
        ((sortDesc scores).length - (-k).toNat),
      take_append_take _ _ _ ?_⟩
    omega

/-- Witness for C8 at the degree scores of the two-node mention graph and
bound 1. -/
theorem C8_top_n_monotone_witness :
    ((1 : Int) ≠ -1) ∧
    ∃ t, sortDescTrunc (degreeScores g2) 1 ++ t = sortDescTrunc (degreeScores g2) 2 :=
  ⟨by decide, C8_top_n_monotone (degreeScores g2) 1 (by decide)⟩

/-- C8 counterexample: on the degree scores of the two-node mention graph
the ranking with bound -1 holds one element while the ranking with bound
0 is empty, so the former is not a prefix of the latter. -/
theorem C8_counterexample :
    ¬ ∃ t, sortDescTrunc (degreeScores g2) (-1) ++ t =
      sortDescTrunc (degreeScores g2) 0 := by
  intro hex
  rcases hex with ⟨t, ht⟩
  have h1 : sortDescTrunc (degreeScores g2) (-1) = [("u2", (1 : Rat))] := by decide
  have h2 : sortDescTrunc (degreeScores g2) 0 = [] := by decide
  rw [h1, h2] at ht
  simp at ht

/-- C5: the source passes `max_iter=1000` to the library eigenvector
routine and wraps the call in no handler, so when power iteration reports
failed convergence the failure propagates to the caller of
`get_top_nodes`: the call produces no score list at all, and no result
value carrying a non-converged flag exists anywhere in the function. -/
theorem C5_nonconvergence_escapes (lib : CentralityLib) (g : DiGraph) (n : Int)
    (e : PowerIterationFailedConvergence) (hg : g.nodes.length ≠ 0)
    (he : lib.eigenvector g = Except.error e) :
    get_top_nodes lib g "eigenvector" n = Except.error e := by
  simp [get_top_nodes, hg, he]

/-- Witness for C5 at the two-node mention graph with the non-converging
library instantiation. -/
theorem C5_nonconvergence_escapes_witness :
    (g2.nodes.length ≠ 0 ∧ lib1.eigenvector g2 = Except.error ⟨1000⟩) ∧
    get_top_nodes lib1 g2 "eigenvector" 10 = Except.error ⟨1000⟩ :=
  ⟨⟨by decide, rfl⟩, C5_nonconvergence_escapes lib1 g2 10 ⟨1000⟩ (by decide) rfl⟩

/-- C9 (amended): a ranking request over a nonempty graph with a metric
name outside the four known kinds returns the ordinary empty list — the
same `Except.ok []` value an empty graph produces — with no score
computation and no sort performed; it is not a distinguished error. -/
theorem C9_unknown_metric (lib : CentralityLib) (g : DiGraph) (metric : String) (n : Int)
    (hg : g.nodes.length ≠ 0) (h1 : metric ≠ "degree") (h2 : metric ≠ "betweenness")
    (h3 : metric ≠ "closeness") (h4 : metric ≠ "eigenvector") :
    get_top_nodes lib g metric n = Except.ok [] ∧
    get_top_nodes lib g metric n = get_top_nodes lib ⟨[], []⟩ metric n := by
  constructor
  · simp [get_top_nodes, hg, h1, h2, h3, h4]
  · simp [get_top_nodes, hg, h1, h2, h3, h4]

/-- Witness for C9 at the two-node mention graph and the unknown metric
name pagerank. -/
theorem C9_unknown_metric_witness :
    (g2.nodes.length ≠ 0 ∧ ("pagerank" : String) ≠ "degree") ∧
    (get_top_nodes lib1 g2 "pagerank" 10 = Except.ok [] ∧
     get_top_nodes lib1 g2 "pagerank" 10 = get_top_nodes lib1 ⟨[], []⟩ "pagerank" 10) :=
  ⟨⟨by decide, by decide⟩,
   C9_unknown_metric lib1 g2 "pagerank" 10 (by decide) (by decide) (by decide)
     (by decide) (by decide)⟩

/-- C9 counterexample: on the nonempty two-node mention graph the unknown
metric name pagerank yields the ordinary value `Except.ok []` — an
empty ranking indistinguishable from the empty-graph result — rather than
any distinguished rejection. -/
theorem C9_counterexample :
    get_top_nodes lib1 g2 "pagerank" 10 = Except.ok [] := rfl

/-! The metrics engine: `calculate_graph_metrics` (lines 109-144).  Every
graph the module builds is a `networkx.DiGraph`, so the directed branch of
the source is the one embedded: `nx.density`, weak connectivity, average
clustering on the undirected projection, and in/out-degree statistics. -/

/-- Out-degree of a node: the number of stored edges whose source is the
node. -/
def out_degree (g : DiGraph) (n : String) : Nat :=
  (g.edges.filter fun e => decide (e.1.1 = n)).length

/-- `nx.density` for a directed graph: `m / (n*(n-1))`, returning 0 when
the graph has no edges or at most one node. -/
def nx_density (g : DiGraph) : Rat :=
  let n := g.nodes.length
  let m := g.edges.length
  if m = 0 ∨ n ≤ 1 then 0 else (m : Rat) / ((n : Rat) * ((n : Rat) - 1))

/-- Adjacency in the undirected projection: an edge in either
direction. -/
def adjacentUndir (g : DiGraph) (v w : String) : Bool :=
  g.edges.any (fun e => decide (e.1 = (v, w))) || g.edges.any (fun e => decide (e.1 = (w, v)))

/-- Neighbours of a node in the undirected projection, the node itself
excluded. -/
def undirNbrs (g : DiGraph) (u : String) : List String :=
  g.nodes.filter fun v => decide (v ≠ u) && adjacentUndir g u v

/-- Local clustering coefficient of one node on the undirected
projection: 0 for degree below two, otherwise the number of ordered
linked neighbour pairs (twice the triangle count) over `d*(d-1)`. -/
def localClust (g : DiGraph) (u : String) : Rat :=
  let nbrs := undirNbrs g u
  let d := nbrs.length
  if d < 2 then 0
  else
    let links := (nbrs.bind fun v => nbrs.map fun w => (v, w)).countP
      (fun p => decide (p.1 ≠ p.2) && adjacentUndir g p.1 p.2)
    (links : Rat) / ((d : Rat) * ((d : Rat) - 1))

/-- `nx.average_clustering` on the undirected projection: the mean of the
local coefficients over all nodes. -/
def nx_average_clustering (g : DiGraph) : Rat :=
  if g.nodes.length = 0 then 0
  else ((g.nodes.map fun u => localClust g u).sum) / (g.nodes.length : Rat)

/-- One expansion step of the undirected reachability closure. -/
def undirStep (g : DiGraph) (s : List String) : List String :=
  (s ++ (g.edges.filterMap fun e => if e.1.1 ∈ s then some e.1.2 else none)
     ++ (g.edges.filterMap fun e => if e.1.2 ∈ s then some e.1.1 else none)).dedup

/-- All nodes reachable from the first node when edge direction is
ignored: as many expansion steps as there are nodes saturate the
component. -/
def weakReach (g : DiGraph) : List String :=
  (List.range g.nodes.length).foldl (fun s _ => undirStep g s) (g.nodes.take 1)

/-- `nx.is_weakly_connected`: every node lies in the undirected
reachability closure of the first node. -/
def nx_is_weakly_connected (g : DiGraph) : Bool :=
  g.nodes.all fun n => decide (n ∈ weakReach g)

/-- The record of metrics the directed branch of
`calculate_graph_metrics` fills in. -/
structure GraphMetrics where
  nodes : Nat
  edges : Nat
  density : Rat
  is_connected : Bool
  average_clustering : Rat
  avg_in_degree : Rat
  avg_out_degree : Rat
  max_in_degree : Nat
  max_out_degree : Nat
deriving DecidableEq, Repr

/-- `calculate_graph_metrics` (lines 109-144): a graph with zero nodes
returns the empty dict — embedded as `none`, a record with no fields —
and otherwise a populated record of the directed-graph statistics. -/
def calculate_graph_metrics (g : DiGraph) : Option GraphMetrics :=
  if g.nodes.length = 0 then none
  else some {
    nodes := g.nodes.length
    edges := g.edges.length
    density := nx_density g
    is_connected := nx_is_weakly_connected g
    average_clustering := nx_average_clustering g
    avg_in_degree := ((g.nodes.map fun n => ((in_degree g n : Nat) : Rat)).sum) / (g.nodes.length : Rat)
    avg_out_degree := ((g.nodes.map fun n => ((out_degree g n : Nat) : Rat)).sum) / (g.nodes.length : Rat)
    max_in_degree := (g.nodes.map fun n => in_degree g n).foldl max 0
    max_out_degree := (g.nodes.map fun n => out_degree g n).foldl max 0 }

/-- C6 counterexample: on the graph with zero nodes the code returns the
empty dict — no statistics fields at all — so the claim that all
statistics come back as 0 fails: there is no statistics record to hold
those zeros. -/
theorem C6_counterexample : calculate_graph_metrics ⟨[], []⟩ = none := rfl

/-- C6 (amended): on the zero-node graph `calculate_graph_metrics`
returns the empty record (no statistics at all) without failing, and on
every graph with exactly one node it returns a populated record whose
density field is 0 — the library density is 0 whenever the graph has at
most one node. -/
theorem C6_empty_and_small_graphs :
    calculate_graph_metrics ⟨[], []⟩ = none ∧
    ∀ g : DiGraph, g.nodes.length = 1 →
      ∃ m, calculate_graph_metrics g = some m ∧ m.density = 0 := by
  refine ⟨rfl, ?_⟩
  intro g hg
  have hne : ¬ g.nodes.length = 0 := by omega
  unfold calculate_graph_metrics
  rw [if_neg hne]
  refine ⟨_, rfl, ?_⟩
  show nx_density g = 0
  simp [nx_density, hg]

/-- Witness for C6 at the one-node self-loop mention graph. -/
theorem C6_empty_and_small_graphs_witness :
    g1.nodes.length = 1 ∧
    ∃ m, calculate_graph_metrics g1 = some m ∧ m.density = 0 :=
  ⟨by decide, C6_empty_and_small_graphs.2 g1 (by decide)⟩

/-! C10: mention-target node identifiers. -/

theorem mentionClean_no_at (m : String) : '@' ∉ (mentionClean m).data := by
  intro hmem
  simp [mentionClean, List.mem_filter] at hmem

theorem keys_bumpAll_sub {κ : Type} [DecidableEq κ] (ks : List κ) :
    ∀ (m : List (κ × Nat)) (e : κ × Nat), e ∈ bumpAll m ks → e.1 ∈ keys m ∨ e.1 ∈ ks := by
  induction ks with
  | nil => intro m e he; left; exact List.mem_map_of_mem Prod.fst he
  | cons k ks ih =>
      intro m e he
      rcases ih (bump k m) e he with h | h
      · rw [keys_bump] at h
        by_cases hk : k ∈ keys m
        · rw [if_pos hk] at h
          left
          exact h
        · rw [if_neg hk] at h
          rcases List.mem_append.mp h with h1 | h1
          · left
            exact h1
          · right
            simp at h1
            simp [h1]
      · right
        exact List.mem_cons_of_mem k h

/-- C10: every edge the mention builder stores runs from a document
author to a cleaned mention token — the token with every at-sign removed
(the replacement call deletes all occurrences) — so no node introduced as
a mention target carries the at-sign character, even though the mention
tokens of the input documents begin with one. -/
theorem C10_targets_cleaned (docs : List Document) (e : (String × String) × Nat)
    (he : e ∈ (build_mention_graph docs).edges) :
    (∃ d ∈ docs, ∃ mtok ∈ d.mentions, e.1 = (d.author_id, mentionClean mtok)) ∧
    '@' ∉ e.1.2.data := by
  have h1 : e.1 ∈ mentionKeys docs := by
    rw [build_mention_graph_edges, build_mention_edges_eq] at he
    rcases keys_bumpAll_sub (mentionKeys docs) [] e he with h | h
    · simp [keys] at h
    · exact h
  rcases List.mem_bind.mp h1 with ⟨d, hd, hkey⟩
  rcases List.mem_map.mp hkey with ⟨mtok, hmtok, hkeq⟩
  constructor
  · exact ⟨d, hd, mtok, hmtok, hkeq.symm⟩
  · rw [← hkeq]
    exact mentionClean_no_at mtok

/-- Witness for C10: the stored edge of the one-mention batch points at
the cleaned token. -/
theorem C10_targets_cleaned_witness :
    ((("u1", "u2"), 1) ∈ (build_mention_graph docsM).edges) ∧
    ((∃ d ∈ docsM, ∃ mtok ∈ d.mentions,
        ((("u1", "u2"), 1) : (String × String) × Nat).1 = (d.author_id, mentionClean mtok)) ∧
     '@' ∉ ((("u1", "u2"), 1) : (String × String) × Nat).1.2.data) :=
  ⟨by decide, C10_targets_cleaned docsM (("u1", "u2"), 1) (by decide)⟩

end SNA
